import Mathlib

/-!
Verification of the IPv4 subnet calculator `Calcular_IPv4/ipcalc.py`.

The program is a thin CLI around Python's `ipaddress` standard-library module:
`parse_input` normalizes the command line into a single `address/prefix` target
string, `summarize` parses it as an `IPv4Interface` and computes the subnet
report, and `__main__` maps errors to process exit codes.

This development shallowly embeds the script together with the parts of the
`ipaddress` module it exercises (`IPv4Interface` parsing, `_parse_octet`,
`_make_netmask`, `_prefix_from_prefix_string`, `_prefix_from_ip_string`,
`_prefix_from_ip_int`, `_count_righthand_zero_bits`, `hosts`, address
rendering).  Python strings are modelled as `List Char`; machine integers are
`Nat` (Python integers are unbounded, and every address value is kept below
`2 ^ 32` by construction); raised exceptions are modelled by `Option`/`none`.
-/

namespace IpCalc

/-- `_ALL_ONES` of the `ipaddress` module: `0xFFFFFFFF`. -/
def allOnes : Nat := 4294967295

/-- `_ip_int_from_prefix(prefixlen)` of the `ipaddress` module:
`ALL_ONES ^ (ALL_ONES >> prefixlen)`. -/
def netmaskInt (p : Nat) : Nat := allOnes ^^^ (allOnes >>> p)

/-- Single-character version of Python's combined `s.isascii() and s.isdigit()`
test: only the ASCII digits `0`-`9` (code points 48-57) pass both. -/
def isDig (c : Char) : Bool := 48 ≤ c.toNat && c.toNat ≤ 57

/-- ASCII whitespace stripped by Python `str.strip()`
(space, tab, LF, VT, FF, CR). -/
def isSpaceChar (c : Char) : Bool :=
  c.toNat = 32 || c.toNat = 9 || c.toNat = 10 || c.toNat = 11 || c.toNat = 12 || c.toNat = 13

/-- Python `s.strip()` on a string modelled as a character list. -/
def pyStrip (s : List Char) : List Char :=
  ((s.dropWhile isSpaceChar).reverse.dropWhile isSpaceChar).reverse

/-- Python `s.split(sep)` for a one-character separator: always returns at
least one (possibly empty) field. -/
def splitOnChar (sep : Char) : List Char → List (List Char)
  | [] => [[]]
  | c :: rest =>
    match splitOnChar sep rest with
    | [] => [[]]
    | g :: gs => if c = sep then [] :: g :: gs else (c :: g) :: gs

/-- Joining with a one-character separator, inverse of `splitOnChar`. -/
def joinSep (sep : Char) : List (List Char) → List Char
  | [] => []
  | [g] => g
  | g :: gs => g ++ sep :: joinSep sep gs

/-- The character of a decimal digit value. -/
def digitChar (d : Nat) : Char := Char.ofNat (48 + d)

/-- Decimal numeral of a natural number, as Python `str(n)` for `n ≥ 0`. -/
def natRepr (n : Nat) : List Char :=
  if _h : n < 10 then [digitChar n]
  else natRepr (n / 10) ++ [digitChar (n % 10)]
termination_by n
decreasing_by exact Nat.div_lt_self (by omega) (by omega)

/-- Value of a decimal digit string, as Python `int(s, 10)` on an
all-ASCII-digit string. -/
def digitsToNat (s : List Char) : Nat :=
  s.foldl (fun acc c => 10 * acc + (c.toNat - 48)) 0

/-- `IPv4Address._parse_octet`: nonempty, ASCII digits only, at most three
characters, no leading zero (unless the octet is exactly `0`), value ≤ 255. -/
def parseOctet (s : List Char) : Option Nat :=
  if s.isEmpty then none
  else if ¬ (s.all isDig) then none
  else if 3 < s.length then none
  else if s ≠ ['0'] ∧ s.head? = some '0' then none
  else if 255 < digitsToNat s then none
  else some (digitsToNat s)

/-- `IPv4Address._ip_int_from_string`: split on dots, exactly four octets,
assembled big-endian. -/
def ipIntFromChars (s : List Char) : Option Nat :=
  if s.isEmpty then none
  else
    match splitOnChar '.' s with
    | [o1, o2, o3, o4] =>
      match parseOctet o1, parseOctet o2, parseOctet o3, parseOctet o4 with
      | some a, some b, some c, some d => some (((a * 256 + b) * 256 + c) * 256 + d)
      | _, _, _, _ => none
    | _ => none

/-- `_prefix_from_prefix_string`: an all-ASCII-digit string whose value lies
in `[0, 32]` (leading zeros are allowed here, since only `int(s)` is taken). -/
def pfxFromPfxChars (s : List Char) : Option Nat :=
  if s.isEmpty then none
  else if ¬ (s.all isDig) then none
  else if digitsToNat s ≤ 32 then some (digitsToNat s) else none

/-- `_count_righthand_zero_bits(number, 32)`.  Python computes
`min(32, (~number & (number-1)).bit_length())`; for `0 < number < 2^32` the
two's-complement `~number & (number-1)` equals
`((2^32 - 1) ^^^ number) &&& (number - 1)` (the bits of `number - 1` above
bit 31 are zero, so the infinitely many high one-bits of `~number` never
contribute), and `int.bit_length` is `Nat.size`. -/
def countRighthandZeroBits (number : Nat) : Nat :=
  if number = 0 then 32
  else min 32 (Nat.size ((allOnes ^^^ number) &&& (number - 1)))

/-- `_prefix_from_ip_int`: accept exactly the values `1^n 0^(32-n)` and
return `n`. -/
def pfxFromIpInt (ipInt : Nat) : Option Nat :=
  let trailingZeroes := countRighthandZeroBits ipInt
  let pfxlen := 32 - trailingZeroes
  let leadingOnes := ipInt >>> trailingZeroes
  if leadingOnes = (1 <<< pfxlen) - 1 then some pfxlen else none

/-- `_prefix_from_ip_string`: parse the dotted quad, try it as a netmask,
then try its complement (hostmask form). -/
def pfxFromIpChars (s : List Char) : Option Nat :=
  match ipIntFromChars s with
  | none => none
  | some ipInt =>
    match pfxFromIpInt ipInt with
    | some p => some p
    | none => pfxFromIpInt (ipInt ^^^ allOnes)

/-- `_make_netmask` on a string argument: prefix-length form first, then
dotted netmask/hostmask form. -/
def makeNetmask (s : List Char) : Option Nat :=
  match pfxFromPfxChars s with
  | some p => some p
  | none => pfxFromIpChars s

/-- `IPv4Interface(target)` parsing: split on `/` (at most one permitted),
address part as four octets, mask part through `_make_netmask`; a bare
address receives prefix length 32.  Returns (address integer, prefix length);
`none` models the `AddressValueError`/`NetmaskValueError` that `summarize`
converts into its own `ValueError`. -/
def parseInterface (t : List Char) : Option (Nat × Nat) :=
  match splitOnChar '/' t with
  | [a] =>
    match ipIntFromChars a with
    | some addr => some (addr, 32)
    | none => none
  | [a, m] =>
    match ipIntFromChars a, makeNetmask m with
    | some addr, some p => some (addr, p)
    | _, _ => none
  | _ => none

/-- The addresses produced by `network.hosts()` when the prefix length is at
most 30: `range(network + 1, broadcast)`, i.e. everything strictly between
network and broadcast address. -/
def hostsRange (net bcast : Nat) : List Nat :=
  (List.range (bcast - (net + 1))).map (fun i => net + 1 + i)

/-- The quantities `summarize` computes (ipcalc.py lines 45-77) before string
formatting: all integer-valued, with `none` modelling Python `None`. -/
structure Summary where
  input_ip : Nat
  network_address : Nat
  netmask : Nat
  pfxlen : Nat
  broadcast : Nat
  total_addresses : Nat
  num_usable : Nat
  first_usable : Option Nat
  last_usable : Option Nat
  gateway : Option Nat
  wildcard : Nat
deriving Repr, DecidableEq

/-- The numeric core of `summarize` (ipcalc.py lines 45-77): from the parsed
interface (address integer, prefix length), compute every reported quantity.
`network.network_address` is `address AND netmask`, `broadcast_address` is
`network OR hostmask`, `num_addresses` is `broadcast - network + 1`, and the
wildcard (line 76) is `netmask XOR 0xFFFFFFFF`. -/
def summarizeCore (addr p : Nat) : Summary :=
  let netmask := netmaskInt p
  let net := addr &&& netmask
  let bcast := net ||| (netmask ^^^ allOnes)
  let total := bcast - net + 1
  let wc := netmask ^^^ allOnes
  if 31 ≤ p then
    { input_ip := addr, network_address := net, netmask := netmask, pfxlen := p,
      broadcast := bcast, total_addresses := total, num_usable := 0,
      first_usable := none, last_usable := none, gateway := none, wildcard := wc }
  else
    let hostsList := hostsRange net bcast
    let numUsable := hostsList.length
    if 0 < numUsable then
      { input_ip := addr, network_address := net, netmask := netmask, pfxlen := p,
        broadcast := bcast, total_addresses := total, num_usable := numUsable,
        first_usable := hostsList.head?, last_usable := hostsList.getLast?,
        gateway := hostsList.head?, wildcard := wc }
    else
      { input_ip := addr, network_address := net, netmask := netmask, pfxlen := p,
        broadcast := bcast, total_addresses := total, num_usable := numUsable,
        first_usable := none, last_usable := none, gateway := none, wildcard := wc }

/-- `str(IPv4Address(v))`: the four big-endian bytes of `v`, rendered in
decimal and joined with dots. -/
def ipToChars (v : Nat) : List Char :=
  natRepr ((v >>> 24) &&& 255) ++ '.' ::
    (natRepr ((v >>> 16) &&& 255) ++ '.' ::
      (natRepr ((v >>> 8) &&& 255) ++ '.' :: natRepr (v &&& 255)))

/-- The result dictionary built at ipcalc.py lines 79-91, with every
address-valued entry rendered as a string. -/
structure Report where
  input_ip : List Char
  network_address : List Char
  netmask : List Char
  pfx_label : List Char
  broadcast : List Char
  total_addresses : Nat
  num_usable : Nat
  first_usable : List Char
  last_usable : List Char
  gateway_suggestion : List Char
  wildcard : List Char
deriving Repr, DecidableEq

/-- The rendering `str(x) if x else "N/A"` used at lines 87-89: an
`IPv4Address` object defines neither `__bool__` nor `__len__` and is hence
always truthy, while `None` is falsy, so exactly `None` becomes `"N/A"`. -/
def renderOpt (o : Option Nat) : List Char :=
  match o with
  | some x => ipToChars x
  | none => "N/A".toList

/-- Lines 79-91: assemble the result dictionary from the numeric summary. -/
def render (s : Summary) : Report :=
  { input_ip := ipToChars s.input_ip,
    network_address := ipToChars s.network_address,
    netmask := ipToChars s.netmask,
    pfx_label := '/' :: natRepr s.pfxlen,
    broadcast := ipToChars s.broadcast,
    total_addresses := s.total_addresses,
    num_usable := s.num_usable,
    first_usable := renderOpt s.first_usable,
    last_usable := renderOpt s.last_usable,
    gateway_suggestion := renderOpt s.gateway,
    wildcard := ipToChars s.wildcard }

/-- `summarize(target)` (ipcalc.py lines 37-92): parse the target as an
`IPv4Interface`, compute and format the report; `none` models the raised
`ValueError("Entrada inválida: ...")`. -/
def summarize (t : List Char) : Option Report :=
  match parseInterface t with
  | none => none
  | some (addr, p) => some (render (summarizeCore addr p))

/-- `parse_input(argv)` (ipcalc.py lines 13-35), on `sys.argv[1:]`; `none`
models each raised `ValueError`.  In the dotted-mask branch the script
evaluates `IPv4Network(f"0.0.0.0/{mask}").prefixlen`: the combined string is
split on `/`, so a mask token itself containing `/` produces three or more
parts and fails, and otherwise the mask token goes through `_make_netmask`
(the `0.0.0.0` address part and the strict host-bits check always succeed). -/
def parseInput (argv : List (List Char)) : Option (List Char) :=
  match argv with
  | [s0] =>
    let s := pyStrip s0
    if '/' ∈ s then some s else none
  | [ip0, mask0] =>
    let ip := pyStrip ip0
    let mask := pyStrip mask0
    if mask.head? = some '/' then some (ip ++ mask)
    else
      match splitOnChar '/' mask with
      | [m] =>
        match makeNetmask m with
        | some p => some (ip ++ '/' :: natRepr p)
        | none => none
      | _ => none
  | _ => none

/-- The exit code of the `__main__` block (ipcalc.py lines 107-125), as a
function of `sys.argv[1:]`: `sys.exit(1)` when no arguments are given
(`SystemExit` is not caught by `except Exception`), 2 when `parse_input` or
`summarize` raises, 0 on success. -/
def mainExitCode (args : List (List Char)) : Nat :=
  if args.length = 0 then 1
  else
    match parseInput args with
    | none => 2
    | some target =>
      match summarize target with
      | none => 2
      | some _ => 0

/-- Spec-side (§3, §4.1): the netmask determined by a prefix length `n` is the
32-bit value with the top `n` bits set, `2^32 - 2^(32-n)`. -/
def specNetmaskVal (n : Nat) : Nat := 2 ^ 32 - 2 ^ (32 - n)

/-- Spec-side (§4.1): a 32-bit value is a valid contiguous netmask when it is
of the form `1^n 0^(32-n)` for some `n` in `[0, 32]`. -/
def specIsContiguousMask (v : Nat) : Bool :=
  (List.range 33).any (fun n => v == specNetmaskVal n)

/-- Spec-side: a 32-bit value is a hostmask (wildcard) pattern
`0^(32-n) 1^n` for some `n` in `[0, 32]`, i.e. the complement of a
contiguous netmask. -/
def specIsHostMask (v : Nat) : Bool :=
  (List.range 33).any (fun n => v == 2 ^ n - 1)

/-! ### Arithmetic facts about the netmask, wildcard and address computations -/

theorem netmask_eq {p : Nat} (hp : p ≤ 32) : netmaskInt p = 2 ^ 32 - 2 ^ (32 - p) := by
  interval_cases p <;> decide

theorem hostmask_eq {p : Nat} (hp : p ≤ 32) : netmaskInt p ^^^ allOnes = 2 ^ (32 - p) - 1 := by
  interval_cases p <;> decide

theorem low_shift_eq {p : Nat} (hp : p ≤ 32) : allOnes >>> p = 2 ^ (32 - p) - 1 := by
  interval_cases p <;> decide

theorem testBit_mul_pow_add {r k : Nat} (hr : r < 2 ^ k) (A i : Nat) :
    (2 ^ k * A + r).testBit i =
      if i < k then r.testBit i else A.testBit (i - k) := by
  rcases Nat.lt_or_ge i k with h | h
  · rw [if_pos h]
    have hk : 2 ^ k = 2 ^ i * 2 ^ (k - i) := by
      rw [← pow_add]
      congr 1
      omega
    have hsplit : 2 ^ k * A + r = 2 ^ i * (2 ^ (k - i) * A) + r := by
      rw [hk]; ring
    rw [Nat.testBit_to_div_mod, Nat.testBit_to_div_mod, hsplit,
      Nat.mul_add_div (Nat.two_pow_pos i)]
    have hki : ∃ m, k - i = m + 1 := ⟨k - i - 1, by omega⟩
    obtain ⟨m, hm⟩ := hki
    rw [hm, pow_succ, mul_comm (2 ^ m) 2, mul_assoc, Nat.mul_add_mod]
  · rw [if_neg (by omega)]
    have hdiv : (2 ^ k * A + r) / 2 ^ i = A / 2 ^ (i - k) := by
      have h1 : (2 ^ k * A + r) / 2 ^ k = A := by
        rw [Nat.mul_add_div (Nat.two_pow_pos k), Nat.div_eq_of_lt hr, Nat.add_zero]
      have h2 : 2 ^ i = 2 ^ k * 2 ^ (i - k) := by
        rw [← pow_add]
        congr 1
        omega
      rw [h2, ← Nat.div_div_eq_div_mul, h1]
    rw [Nat.testBit_to_div_mod, Nat.testBit_to_div_mod, hdiv]

theorem or_decomp {r k : Nat} (hr : r < 2 ^ k) (A : Nat) :
    2 ^ k * A ||| r = 2 ^ k * A + r := by
  apply Nat.eq_of_testBit_eq
  intro i
  rw [Nat.testBit_or, testBit_mul_pow_add hr A i]
  rcases Nat.lt_or_ge i k with h | h
  · rw [if_pos h]
    have : (2 ^ k * A).testBit i = false := by
      have := testBit_mul_pow_add (r := 0) (k := k) (Nat.two_pow_pos k) A i
      rw [Nat.add_zero] at this
      rw [this, if_pos h, Nat.zero_testBit]
    rw [this, Bool.false_or]
  · rw [if_neg (by omega)]
    have hrb : r.testBit i = false := by
      apply Nat.testBit_lt_two_pow
      exact lt_of_lt_of_le hr (Nat.pow_le_pow_right (by omega) h)
    have : (2 ^ k * A).testBit i = A.testBit (i - k) := by
      have := testBit_mul_pow_add (r := 0) (k := k) (Nat.two_pow_pos k) A i
      rw [Nat.add_zero] at this
      rw [this, if_neg (by omega)]
    rw [this, hrb, Bool.or_false]

theorem xor_decomp {r k : Nat} (hr : r < 2 ^ k) (A : Nat) :
    2 ^ k * A ^^^ r = 2 ^ k * A + r := by
  apply Nat.eq_of_testBit_eq
  intro i
  rw [Nat.testBit_xor, testBit_mul_pow_add hr A i]
  rcases Nat.lt_or_ge i k with h | h
  · rw [if_pos h]
    have : (2 ^ k * A).testBit i = false := by
      have := testBit_mul_pow_add (r := 0) (k := k) (Nat.two_pow_pos k) A i
      rw [Nat.add_zero] at this
      rw [this, if_pos h, Nat.zero_testBit]
    rw [this, Bool.false_xor]
  · rw [if_neg (by omega)]
    have hrb : r.testBit i = false := by
      apply Nat.testBit_lt_two_pow
      exact lt_of_lt_of_le hr (Nat.pow_le_pow_right (by omega) h)
    have : (2 ^ k * A).testBit i = A.testBit (i - k) := by
      have := testBit_mul_pow_add (r := 0) (k := k) (Nat.two_pow_pos k) A i
      rw [Nat.add_zero] at this
      rw [this, if_neg (by omega)]
    rw [this, hrb, Bool.xor_false]

theorem and_netmask {a : Nat} (p : Nat) (ha : a < 2 ^ 32) (hp : p ≤ 32) :
    a &&& netmaskInt p = 2 ^ (32 - p) * (a / 2 ^ (32 - p)) := by
  have hlow : allOnes >>> p = 2 ^ (32 - p) - 1 := low_shift_eq hp
  rw [netmaskInt, hlow, Nat.and_xor_distrib_left]
  have h1 : a &&& allOnes = a := by
    have : allOnes = 2 ^ 32 - 1 := by decide
    rw [this, Nat.and_pow_two_sub_one_eq_mod, Nat.mod_eq_of_lt ha]
  have h2 : a &&& (2 ^ (32 - p) - 1) = a % 2 ^ (32 - p) :=
    Nat.and_pow_two_sub_one_eq_mod a (32 - p)
  rw [h1, h2]
  have hsplit : a = 2 ^ (32 - p) * (a / 2 ^ (32 - p)) + a % 2 ^ (32 - p) :=
    (Nat.div_add_mod a (2 ^ (32 - p))).symm
  have hmlt : a % 2 ^ (32 - p) < 2 ^ (32 - p) := Nat.mod_lt _ (Nat.two_pow_pos _)
  calc a ^^^ a % 2 ^ (32 - p)
      = (2 ^ (32 - p) * (a / 2 ^ (32 - p)) ^^^ a % 2 ^ (32 - p)) ^^^ a % 2 ^ (32 - p) := by
        rw [xor_decomp hmlt, ← hsplit]
    _ = 2 ^ (32 - p) * (a / 2 ^ (32 - p)) := by
        rw [Nat.xor_assoc, Nat.xor_self, Nat.xor_zero]

/-! ### Field projections of `summarizeCore` -/

theorem summarizeCore_input (addr p : Nat) : (summarizeCore addr p).input_ip = addr := by
  unfold summarizeCore
  split
  · rfl
  · dsimp only
    split <;> rfl

theorem summarizeCore_pfxlen (addr p : Nat) : (summarizeCore addr p).pfxlen = p := by
  unfold summarizeCore
  split
  · rfl
  · dsimp only
    split <;> rfl

theorem summarizeCore_netmask (addr p : Nat) :
    (summarizeCore addr p).netmask = netmaskInt p := by
  unfold summarizeCore
  split
  · rfl
  · dsimp only
    split <;> rfl

theorem summarizeCore_network (addr p : Nat) :
    (summarizeCore addr p).network_address = addr &&& netmaskInt p := by
  unfold summarizeCore
  split
  · rfl
  · dsimp only
    split <;> rfl

theorem summarizeCore_broadcast (addr p : Nat) :
    (summarizeCore addr p).broadcast =
      (addr &&& netmaskInt p) ||| (netmaskInt p ^^^ allOnes) := by
  unfold summarizeCore
  split
  · rfl
  · dsimp only
    split <;> rfl

theorem summarizeCore_total (addr p : Nat) :
    (summarizeCore addr p).total_addresses =
      (summarizeCore addr p).broadcast - (summarizeCore addr p).network_address + 1 := by
  unfold summarizeCore
  split
  · rfl
  · dsimp only
    split <;> rfl

theorem summarizeCore_wildcard (addr p : Nat) :
    (summarizeCore addr p).wildcard = netmaskInt p ^^^ allOnes := by
  unfold summarizeCore
  split
  · rfl
  · dsimp only
    split <;> rfl

/-! ### Network and broadcast address values -/

theorem network_div {a : Nat} (p : Nat) (ha : a < 2 ^ 32) (hp : p ≤ 32) :
    (summarizeCore a p).network_address = 2 ^ (32 - p) * (a / 2 ^ (32 - p)) := by
  rw [summarizeCore_network, and_netmask p ha hp]

theorem broadcast_val {a : Nat} (p : Nat) (ha : a < 2 ^ 32) (hp : p ≤ 32) :
    (summarizeCore a p).broadcast =
      (summarizeCore a p).network_address + (2 ^ (32 - p) - 1) := by
  rw [summarizeCore_broadcast, summarizeCore_network, hostmask_eq hp,
    and_netmask p ha hp]
  exact or_decomp (by have := Nat.two_pow_pos (32 - p); omega) _

/-! ### The host-range list -/

theorem hostsRange_length (net b : Nat) : (hostsRange net b).length = b - (net + 1) := by
  simp [hostsRange]

theorem hostsRange_head {net b : Nat} (h : net + 1 < b) :
    (hostsRange net b).head? = some (net + 1) := by
  unfold hostsRange
  obtain ⟨m, hm⟩ : ∃ m, b - (net + 1) = m + 1 := ⟨b - (net + 1) - 1, by omega⟩
  rw [hm, List.range_succ_eq_map]
  simp

theorem hostsRange_getLast {net b : Nat} (h : net + 1 < b) :
    (hostsRange net b).getLast? = some (b - 1) := by
  unfold hostsRange
  obtain ⟨m, hm⟩ : ∃ m, b - (net + 1) = m + 1 := ⟨b - (net + 1) - 1, by omega⟩
  rw [hm, List.range_succ, List.map_append, List.map_cons, List.map_nil,
    List.getLast?_concat]
  congr 1
  omega

/-! ### Claim theorems on the numeric core -/

/-- C1: for every (address, prefix) input with prefix in [0, 30], `summarize`
reports `num_usable = total_addresses - 2`,
`first_usable = network_address + 1`, `last_usable = broadcast_address - 1`
and `gateway = first_usable`, even though the code derives these by
enumerating `network.hosts()` rather than by the direct formulas. -/
theorem C1_usable_host_formulas (a p : Nat) (ha : a < 2 ^ 32) (hp : p ≤ 30) :
    (summarizeCore a p).num_usable = (summarizeCore a p).total_addresses - 2 ∧
    (summarizeCore a p).first_usable = some ((summarizeCore a p).network_address + 1) ∧
    (summarizeCore a p).last_usable = some ((summarizeCore a p).broadcast - 1) ∧
    (summarizeCore a p).gateway = (summarizeCore a p).first_usable := by
  have hp32 : p ≤ 32 := by omega
  have hpow : 4 ≤ 2 ^ (32 - p) := by
    calc (4 : Nat) = 2 ^ 2 := by norm_num
    _ ≤ 2 ^ (32 - p) := Nat.pow_le_pow_right (by omega) (by omega)
  have hnet : a &&& netmaskInt p = 2 ^ (32 - p) * (a / 2 ^ (32 - p)) :=
    and_netmask p ha hp32
  have hb : (a &&& netmaskInt p) ||| (netmaskInt p ^^^ allOnes) =
      (a &&& netmaskInt p) + (2 ^ (32 - p) - 1) := by
    rw [hostmask_eq hp32, hnet]
    exact or_decomp (by omega) _
  have hlt : (a &&& netmaskInt p) + 1 <
      (a &&& netmaskInt p) ||| (netmaskInt p ^^^ allOnes) := by
    rw [hb]; omega
  unfold summarizeCore
  rw [if_neg (by omega : ¬ 31 ≤ p)]
  dsimp only
  rw [if_pos (by rw [hostsRange_length]; omega)]
  refine ⟨?_, ?_, ?_, rfl⟩
  · dsimp only
    rw [hostsRange_length, hb]
    omega
  · dsimp only
    rw [hostsRange_head hlt]
  · dsimp only
    rw [hostsRange_getLast hlt]

theorem C1_usable_host_formulas_witness :
    (3232235786 : Nat) < 2 ^ 32 ∧ (24 : Nat) ≤ 30 ∧
    ((summarizeCore 3232235786 24).num_usable =
        (summarizeCore 3232235786 24).total_addresses - 2 ∧
      (summarizeCore 3232235786 24).first_usable =
        some ((summarizeCore 3232235786 24).network_address + 1) ∧
      (summarizeCore 3232235786 24).last_usable =
        some ((summarizeCore 3232235786 24).broadcast - 1) ∧
      (summarizeCore 3232235786 24).gateway = (summarizeCore 3232235786 24).first_usable) :=
  ⟨by decide, by decide, C1_usable_host_formulas 3232235786 24 (by decide) (by decide)⟩

/-- C2: for every address and every prefix in {31, 32}, `summarize` reports
`num_usable = 0` and renders `first_usable`, `last_usable` and
`gateway_suggestion` as the marker `"N/A"` instead of numeric addresses. -/
theorem C2_degenerate_na (a p : Nat) (ha : a < 2 ^ 32) (hp : p = 31 ∨ p = 32) :
    (render (summarizeCore a p)).num_usable = 0 ∧
    (render (summarizeCore a p)).first_usable = "N/A".toList ∧
    (render (summarizeCore a p)).last_usable = "N/A".toList ∧
    (render (summarizeCore a p)).gateway_suggestion = "N/A".toList := by
  have h31 : 31 ≤ p := by omega
  unfold summarizeCore
  rw [if_pos h31]
  exact ⟨rfl, rfl, rfl, rfl⟩

theorem C2_degenerate_na_witness :
    (3232235777 : Nat) < 2 ^ 32 ∧ ((31 : Nat) = 31 ∨ (31 : Nat) = 32) ∧
    ((render (summarizeCore 3232235777 31)).num_usable = 0 ∧
      (render (summarizeCore 3232235777 31)).first_usable = "N/A".toList ∧
      (render (summarizeCore 3232235777 31)).last_usable = "N/A".toList ∧
      (render (summarizeCore 3232235777 31)).gateway_suggestion = "N/A".toList) :=
  ⟨by decide, Or.inl rfl, C2_degenerate_na 3232235777 31 (by decide) (Or.inl rfl)⟩

/-- C5: for every valid 32-bit address `a` (host bits need not be zero) and
every prefix `p` in [0, 32], the computed subnet satisfies
`network_address ≤ a ≤ broadcast_address`, with
`network_address = a AND netmask` and
`broadcast_address = network_address OR wildcard`. -/
theorem C5_address_between (a p : Nat) (ha : a < 2 ^ 32) (hp : p ≤ 32) :
    (summarizeCore a p).network_address = a &&& netmaskInt p ∧
    (summarizeCore a p).broadcast =
      (summarizeCore a p).network_address ||| (netmaskInt p ^^^ allOnes) ∧
    (summarizeCore a p).network_address ≤ a ∧ a ≤ (summarizeCore a p).broadcast := by
  refine ⟨summarizeCore_network a p, ?_, ?_, ?_⟩
  · rw [summarizeCore_broadcast, summarizeCore_network]
  · rw [network_div p ha hp, mul_comm]
    exact Nat.div_mul_le_self a (2 ^ (32 - p))
  · rw [broadcast_val p ha hp, network_div p ha hp]
    have h1 := Nat.div_add_mod a (2 ^ (32 - p))
    have h2 : a % 2 ^ (32 - p) < 2 ^ (32 - p) := Nat.mod_lt _ (Nat.two_pow_pos _)
    omega

theorem C5_address_between_witness :
    (3232235786 : Nat) < 2 ^ 32 ∧ (24 : Nat) ≤ 32 ∧
    ((summarizeCore 3232235786 24).network_address = 3232235786 &&& netmaskInt 24 ∧
      (summarizeCore 3232235786 24).broadcast =
        (summarizeCore 3232235786 24).network_address ||| (netmaskInt 24 ^^^ allOnes) ∧
      (summarizeCore 3232235786 24).network_address ≤ 3232235786 ∧
      3232235786 ≤ (summarizeCore 3232235786 24).broadcast) :=
  ⟨by decide, by decide, C5_address_between 3232235786 24 (by decide) (by decide)⟩

/-- C6: for every prefix `p` in [0, 32], the reported `total_addresses` equals
exactly `2 ^ (32 - p)`, including `p = 0` where the total is 4294967296 with
no overflow. -/
theorem C6_total_addresses (a p : Nat) (ha : a < 2 ^ 32) (hp : p ≤ 32) :
    (summarizeCore a p).total_addresses = 2 ^ (32 - p) := by
  rw [summarizeCore_total, broadcast_val p ha hp]
  have := Nat.two_pow_pos (32 - p)
  omega

theorem C6_total_addresses_witness :
    (5 : Nat) < 2 ^ 32 ∧ (0 : Nat) ≤ 32 ∧
    (summarizeCore 5 0).total_addresses = 2 ^ (32 - 0) :=
  ⟨by decide, by decide, C6_total_addresses 5 0 (by decide) (by decide)⟩

/-- C7: for every prefix `p` in [0, 32] and every address `a`, the reported
wildcard equals the bitwise complement of the netmask
(`netmask XOR 0xFFFFFFFF`), and `network_address AND wildcard = 0`. -/
theorem C7_wildcard_complement (a p : Nat) (ha : a < 2 ^ 32) (hp : p ≤ 32) :
    (summarizeCore a p).wildcard = netmaskInt p ^^^ allOnes ∧
    (summarizeCore a p).network_address &&& (summarizeCore a p).wildcard = 0 := by
  refine ⟨summarizeCore_wildcard a p, ?_⟩
  rw [summarizeCore_wildcard, summarizeCore_network, hostmask_eq hp,
    and_netmask p ha hp, Nat.and_pow_two_sub_one_eq_mod, Nat.mul_mod_right]

/-! ### Splitting and joining strings -/

theorem splitOnChar_ne_nil (sep : Char) (s : List Char) : splitOnChar sep s ≠ [] := by
  cases s with
  | nil => simp [splitOnChar]
  | cons c rest =>
    unfold splitOnChar
    cases splitOnChar sep rest with
    | nil => simp
    | cons g gs =>
      by_cases h : c = sep <;> simp [h]

theorem joinSep_splitOnChar (sep : Char) (s : List Char) :
    joinSep sep (splitOnChar sep s) = s := by
  induction s with
  | nil => rfl
  | cons c rest ih =>
    rcases hsp : splitOnChar sep rest with _ | ⟨g, gs⟩
    · exact absurd hsp (splitOnChar_ne_nil sep rest)
    · rw [hsp] at ih
      by_cases h : c = sep
      · have hstep : splitOnChar sep (c :: rest) = [] :: g :: gs := by
          unfold splitOnChar
          rw [hsp]
          simp [h]
        rw [hstep]
        cases gs with
        | nil => simpa [joinSep, h] using ih
        | cons g2 gs2 => simpa [joinSep, h] using ih
      · have hstep : splitOnChar sep (c :: rest) = (c :: g) :: gs := by
          unfold splitOnChar
          rw [hsp]
          simp [h]
        rw [hstep]
        cases gs with
        | nil => simpa [joinSep] using ih
        | cons g2 gs2 => simpa [joinSep] using ih

theorem splitOnChar_of_not_mem {sep : Char} {s : List Char} (h : sep ∉ s) :
    splitOnChar sep s = [s] := by
  induction s with
  | nil => rfl
  | cons c rest ih =>
    rw [List.mem_cons, not_or] at h
    obtain ⟨h1, h2⟩ := h
    have hrest : splitOnChar sep rest = [rest] := ih h2
    unfold splitOnChar
    rw [hrest]
    simp only []
    rw [if_neg (fun hc => h1 hc.symm)]

theorem mem_of_splitOnChar_two {sep : Char} {s : List Char}
    (h : 2 ≤ (splitOnChar sep s).length) : sep ∈ s := by
  by_contra hm
  rw [splitOnChar_of_not_mem hm] at h
  simp at h

/-! ### Digit characters and decimal numerals -/

theorem isDig_iff {c : Char} : isDig c = true ↔ 48 ≤ c.toNat ∧ c.toNat ≤ 57 := by
  simp [isDig]

theorem digitChar_eq_self {c : Char} (h1 : 48 ≤ c.toNat) (h2 : c.toNat ≤ 57) :
    digitChar (c.toNat - 48) = c := by
  have : 48 + (c.toNat - 48) = c.toNat := by omega
  rw [digitChar, this, Char.ofNat_toNat]

theorem digitsToNat_append_singleton (l : List Char) (c : Char) :
    digitsToNat (l ++ [c]) = 10 * digitsToNat l + (c.toNat - 48) := by
  simp [digitsToNat, List.foldl_append]

theorem digitChar_zero : digitChar 0 = '0' := by decide

theorem digitsToNat_head_pos {c : Char} (rest : List Char)
    (hd : isDig c = true) (hne : c ≠ '0') :
    1 ≤ digitsToNat (c :: rest) := by
  obtain ⟨h1, h2⟩ := isDig_iff.mp hd
  have hc48 : c.toNat ≠ 48 := by
    intro h
    apply hne
    have h0 : digitChar (c.toNat - 48) = c := digitChar_eq_self h1 h2
    rw [h, Nat.sub_self, digitChar_zero] at h0
    exact h0.symm
  have hstep : ∀ (l : List Char) (acc : Nat), 1 ≤ acc →
      1 ≤ l.foldl (fun acc c => 10 * acc + (c.toNat - 48)) acc := by
    intro l
    induction l with
    | nil => intro acc h; exact h
    | cons x xs ih =>
      intro acc h
      show 1 ≤ xs.foldl (fun acc c => 10 * acc + (c.toNat - 48)) (10 * acc + (x.toNat - 48))
      exact ih _ (by omega)
  have hfold : digitsToNat (c :: rest) =
      rest.foldl (fun acc c => 10 * acc + (c.toNat - 48)) (c.toNat - 48) := by
    simp [digitsToNat]
  rw [hfold]
  exact hstep rest _ (by omega)

/-- Canonicality: rendering the value of a digit string with no leading zero
yields the original string again. -/
theorem natRepr_digitsToNat (s : List Char) :
    s ≠ [] → (∀ c ∈ s, isDig c = true) → (s = ['0'] ∨ s.head? ≠ some '0') →
    natRepr (digitsToNat s) = s := by
  induction s using List.reverseRecOn with
  | nil => intro h _ _; exact absurd rfl h
  | append_singleton l c ih =>
    intro _hne hdig hlz
    obtain ⟨hc1, hc2⟩ := isDig_iff.mp (hdig c (by simp))
    rcases List.eq_nil_or_concat l with hl | ⟨l2, c2, hl2⟩
    · subst hl
      have hv : digitsToNat [c] = c.toNat - 48 := by simp [digitsToNat]
      rw [List.nil_append, hv, natRepr, dif_pos (by omega : c.toNat - 48 < 10)]
      rw [digitChar_eq_self hc1 hc2]
    · have hlne : l ≠ [] := by rw [hl2]; simp
      obtain ⟨x, xs, hx⟩ : ∃ x xs, l = x :: xs := by
        rcases l with _ | ⟨x, xs⟩
        · exact absurd rfl hlne
        · exact ⟨x, xs, rfl⟩
      have hhead : x ≠ '0' := by
        rcases hlz with h | h
        · exfalso
          rw [hx] at h
          simp at h
        · intro hx0
          apply h
          rw [hx, hx0]
          simp
      have hxdig : isDig x = true := hdig x (by rw [hx]; simp)
      have hvpos : 1 ≤ digitsToNat l := by
        rw [hx]
        exact digitsToNat_head_pos xs hxdig hhead
      rw [digitsToNat_append_singleton]
      rw [natRepr, dif_neg (by omega : ¬ 10 * digitsToNat l + (c.toNat - 48) < 10)]
      have hdiv : (10 * digitsToNat l + (c.toNat - 48)) / 10 = digitsToNat l := by
        rw [Nat.mul_add_div (by omega)]
        have : (c.toNat - 48) / 10 = 0 := Nat.div_eq_of_lt (by omega)
        omega
      have hmod : (10 * digitsToNat l + (c.toNat - 48)) % 10 = c.toNat - 48 := by
        rw [Nat.mul_add_mod]
        exact Nat.mod_eq_of_lt (by omega)
      rw [hdiv, hmod, digitChar_eq_self hc1 hc2]
      rw [ih hlne (fun d hd => hdig d (by simp [hd]))
        (Or.inr (by rw [hx]; simpa using hhead))]

/-! ### Octet and address parsing -/

theorem parseOctet_elim {s : List Char} {v : Nat} (h : parseOctet s = some v) :
    s ≠ [] ∧ (∀ c ∈ s, isDig c = true) ∧ s.length ≤ 3 ∧
      (s = ['0'] ∨ s.head? ≠ some '0') ∧ digitsToNat s = v ∧ v ≤ 255 := by
  unfold parseOctet at h
  split_ifs at h with h1 h2 h3 h4 h5 <;> try exact Option.noConfusion h
  have hv := Option.some.inj h
  refine ⟨?_, ?_, by omega, ?_, hv, by omega⟩
  · simpa [List.isEmpty_iff] using h1
  · intro c hc
    exact List.all_eq_true.mp h2 c hc
  · by_cases hs : s = ['0']
    · exact Or.inl hs
    · refine Or.inr ?_
      intro hh
      exact h4 ⟨hs, hh⟩

theorem parseOctet_repr {s : List Char} {v : Nat} (h : parseOctet s = some v) :
    natRepr v = s := by
  obtain ⟨hne, hdig, _, hlz, hv, _⟩ := parseOctet_elim h
  rw [← hv]
  exact natRepr_digitsToNat s hne hdig hlz

theorem ipIntFromChars_elim {s : List Char} {v : Nat} (h : ipIntFromChars s = some v) :
    ∃ o1 o2 o3 o4 b1 b2 b3 b4,
      splitOnChar '.' s = [o1, o2, o3, o4] ∧
      parseOctet o1 = some b1 ∧ parseOctet o2 = some b2 ∧
      parseOctet o3 = some b3 ∧ parseOctet o4 = some b4 ∧
      v = ((b1 * 256 + b2) * 256 + b3) * 256 + b4 := by
  unfold ipIntFromChars at h
  split_ifs at h with h0 <;> try exact Option.noConfusion h
  split at h <;> try exact Option.noConfusion h
  rename_i o1 o2 o3 o4 hsp
  split at h <;> try exact Option.noConfusion h
  rename_i b1 b2 b3 b4 hp1 hp2 hp3 hp4
  exact ⟨o1, o2, o3, o4, b1, b2, b3, b4, hsp, hp1, hp2, hp3, hp4,
    (Option.some.inj h).symm⟩

theorem ipIntFromChars_lt {s : List Char} {v : Nat} (h : ipIntFromChars s = some v) :
    v < 2 ^ 32 := by
  obtain ⟨o1, o2, o3, o4, b1, b2, b3, b4, _, hp1, hp2, hp3, hp4, hv⟩ :=
    ipIntFromChars_elim h
  obtain ⟨_, _, _, _, _, hb1⟩ := parseOctet_elim hp1
  obtain ⟨_, _, _, _, _, hb2⟩ := parseOctet_elim hp2
  obtain ⟨_, _, _, _, _, hb3⟩ := parseOctet_elim hp3
  obtain ⟨_, _, _, _, _, hb4⟩ := parseOctet_elim hp4
  subst hv
  omega

theorem and_255_eq_mod (x : Nat) : x &&& 255 = x % 256 := by
  have h := Nat.and_pow_two_sub_one_eq_mod x 8
  norm_num at h
  exact h

theorem ipToChars_assembled {b1 b2 b3 b4 : Nat}
    (h1 : b1 ≤ 255) (h2 : b2 ≤ 255) (h3 : b3 ≤ 255) (h4 : b4 ≤ 255) :
    ipToChars (((b1 * 256 + b2) * 256 + b3) * 256 + b4) =
      natRepr b1 ++ '.' :: (natRepr b2 ++ '.' :: (natRepr b3 ++ '.' :: natRepr b4)) := by
  have hb1 : ((((b1 * 256 + b2) * 256 + b3) * 256 + b4) >>> 24) &&& 255 = b1 := by
    rw [and_255_eq_mod, Nat.shiftRight_eq_div_pow]
    have hdiv : (((b1 * 256 + b2) * 256 + b3) * 256 + b4) / 2 ^ 24 = b1 :=
      Nat.div_eq_of_lt_le (by omega) (by omega)
    rw [hdiv]
    exact Nat.mod_eq_of_lt (by omega)
  have hb2 : ((((b1 * 256 + b2) * 256 + b3) * 256 + b4) >>> 16) &&& 255 = b2 := by
    rw [and_255_eq_mod, Nat.shiftRight_eq_div_pow]
    have hdiv : (((b1 * 256 + b2) * 256 + b3) * 256 + b4) / 2 ^ 16 = b1 * 256 + b2 :=
      Nat.div_eq_of_lt_le (by omega) (by omega)
    rw [hdiv, Nat.mul_comm b1 256, Nat.mul_add_mod]
    exact Nat.mod_eq_of_lt (by omega)
  have hb3 : ((((b1 * 256 + b2) * 256 + b3) * 256 + b4) >>> 8) &&& 255 = b3 := by
    rw [and_255_eq_mod, Nat.shiftRight_eq_div_pow]
    have hdiv : (((b1 * 256 + b2) * 256 + b3) * 256 + b4) / 2 ^ 8 =
        (b1 * 256 + b2) * 256 + b3 :=
      Nat.div_eq_of_lt_le (by omega) (by omega)
    rw [hdiv, Nat.mul_comm (b1 * 256 + b2) 256, Nat.mul_add_mod]
    exact Nat.mod_eq_of_lt (by omega)
  have hb4 : (((b1 * 256 + b2) * 256 + b3) * 256 + b4) &&& 255 = b4 := by
    rw [and_255_eq_mod, Nat.mul_comm ((b1 * 256 + b2) * 256 + b3) 256, Nat.mul_add_mod]
    exact Nat.mod_eq_of_lt (by omega)
  unfold ipToChars
  rw [hb1, hb2, hb3, hb4]

/-- Canonicality of address rendering: the string form of a parsed address is
the original string. -/
theorem ipToChars_of_parse {s : List Char} {v : Nat} (h : ipIntFromChars s = some v) :
    ipToChars v = s := by
  obtain ⟨o1, o2, o3, o4, b1, b2, b3, b4, hsp, hp1, hp2, hp3, hp4, hv⟩ :=
    ipIntFromChars_elim h
  obtain ⟨_, _, _, _, _, hb1⟩ := parseOctet_elim hp1
  obtain ⟨_, _, _, _, _, hb2⟩ := parseOctet_elim hp2
  obtain ⟨_, _, _, _, _, hb3⟩ := parseOctet_elim hp3
  obtain ⟨_, _, _, _, _, hb4⟩ := parseOctet_elim hp4
  rw [hv, ipToChars_assembled hb1 hb2 hb3 hb4,
    parseOctet_repr hp1, parseOctet_repr hp2, parseOctet_repr hp3, parseOctet_repr hp4]
  have hjoin := joinSep_splitOnChar '.' s
  rw [hsp] at hjoin
  simpa [joinSep] using hjoin

theorem pfxFromPfxChars_none_of_dotted {s : List Char} {v : Nat}
    (h : ipIntFromChars s = some v) : pfxFromPfxChars s = none := by
  obtain ⟨o1, o2, o3, o4, _, _, _, _, hsp, _, _, _, _, _⟩ := ipIntFromChars_elim h
  have hdot : '.' ∈ s := mem_of_splitOnChar_two (by rw [hsp]; simp)
  by_cases he : s.isEmpty
  · simp [pfxFromPfxChars, he]
  · have hall : s.all isDig = false := by
      rw [List.all_eq_false]
      exact ⟨'.', hdot, by decide⟩
    simp [pfxFromPfxChars, he, hall]

/-! ### Characterization of `_prefix_from_ip_int` -/

theorem size_two_pow_sub_one (t : Nat) : Nat.size (2 ^ t - 1) = t := by
  rcases Nat.eq_zero_or_pos t with h0 | hpos
  · subst h0
    simpa using Nat.size_zero
  · have h2 : 2 ^ t = 2 * 2 ^ (t - 1) := by
      conv_lhs => rw [show t = (t - 1) + 1 by omega]
      rw [pow_succ, Nat.mul_comm]
    have h1 : (1 : Nat) ≤ 2 ^ (t - 1) := Nat.one_le_two_pow
    apply le_antisymm
    · rw [Nat.size_le]
      omega
    · have hlt : t - 1 < Nat.size (2 ^ t - 1) := Nat.lt_size.mpr (by omega)
      omega

/-- The two's-complement trick `~v & (v - 1)` isolates the trailing zeros:
for `v = 2^t * m` with `m` odd and `v < 2^32` it evaluates to `2^t - 1`. -/
theorem complement_and_pred {t m : Nat} (hm : m % 2 = 1) (ht : t ≤ 31)
    (hmlt : m < 2 ^ (32 - t)) :
    (allOnes ^^^ 2 ^ t * m) &&& (2 ^ t * m - 1) = 2 ^ t - 1 := by
  have h2t : (1 : Nat) ≤ 2 ^ t := Nat.one_le_two_pow
  have hmul : 2 ^ t * m = 2 ^ t * (m - 1) + 2 ^ t := by
    obtain ⟨m1, hm1⟩ : ∃ m1, m = m1 + 1 := ⟨m - 1, by omega⟩
    subst hm1
    rw [Nat.add_sub_cancel, Nat.mul_add, Nat.mul_one]
  have hpred : 2 ^ t * m - 1 = 2 ^ t * (m - 1) + (2 ^ t - 1) := by omega
  apply Nat.eq_of_testBit_eq
  intro i
  rw [Nat.testBit_and, Nat.testBit_xor, hpred]
  have hv_bit : (2 ^ t * m).testBit i =
      if i < t then false else m.testBit (i - t) := by
    have hb := testBit_mul_pow_add (r := 0) (k := t) (Nat.two_pow_pos t) m i
    rw [Nat.add_zero] at hb
    rw [hb]
    split_ifs <;> simp [Nat.zero_testBit]
  have hpred_bit : (2 ^ t * (m - 1) + (2 ^ t - 1)).testBit i =
      if i < t then true else (m - 1).testBit (i - t) := by
    rw [testBit_mul_pow_add (by omega) (m - 1) i]
    split_ifs with hi
    · rw [Nat.testBit_two_pow_sub_one]
      simp [hi]
    · rfl
  have hallOnes : allOnes.testBit i = decide (i < 32) := by
    have h32 : allOnes = 2 ^ 32 - 1 := by decide
    rw [h32, Nat.testBit_two_pow_sub_one]
  rw [hv_bit, hpred_bit, hallOnes, Nat.testBit_two_pow_sub_one]
  by_cases hi : i < t
  · simp [hi, show i < 32 by omega]
  · rw [if_neg hi, if_neg hi]
    have hrhs : decide (i < t) = false := by simp [hi]
    rw [hrhs]
    by_cases hj0 : i - t = 0
    · have hb0 : (m - 1).testBit 0 = false := by
        rw [Nat.testBit_to_div_mod]
        simp
        omega
      rw [hj0, hb0, Bool.and_false]
    · by_cases hi32 : i < 32
      · have hmb : (m - 1).testBit (i - t) = m.testBit (i - t) := by
          obtain ⟨c, hc⟩ : ∃ c, m = 2 * c + 1 := ⟨m / 2, by omega⟩
          obtain ⟨j, hj⟩ : ∃ j, i - t = j + 1 := ⟨i - t - 1, by omega⟩
          rw [hc, hj, Nat.testBit_add_one, Nat.testBit_add_one]
          congr 1
          omega
        rw [hmb]
        cases hb : m.testBit (i - t) <;> simp [hi32]
      · have hmlt2 : m < 2 ^ (i - t) :=
          lt_of_lt_of_le hmlt (Nat.pow_le_pow_right (by omega) (by omega))
        have hb1 : m.testBit (i - t) = false := Nat.testBit_lt_two_pow hmlt2
        have hb2 : (m - 1).testBit (i - t) = false :=
          Nat.testBit_lt_two_pow (lt_of_le_of_lt (Nat.sub_le m 1) hmlt2)
        rw [hb2, Bool.and_false]

theorem countRighthand_eq {v t m : Nat} (hm : m % 2 = 1) (ht : t ≤ 31)
    (hmlt : m < 2 ^ (32 - t)) (hveq : v = 2 ^ t * m) :
    countRighthandZeroBits v = t := by
  have hv0 : v ≠ 0 := by
    rw [hveq]
    have h1 := Nat.two_pow_pos t
    exact Nat.mul_ne_zero (by omega) (by omega)
  unfold countRighthandZeroBits
  rw [if_neg hv0, hveq, complement_and_pred hm ht hmlt, size_two_pow_sub_one]
  omega

/-- Completeness of `_prefix_from_ip_int`: every contiguous netmask value is
accepted with its prefix length. -/
theorem pfxFromIpInt_netmask {n : Nat} (hn : n ≤ 32) :
    pfxFromIpInt (netmaskInt n) = some n := by
  rcases Nat.eq_zero_or_pos n with h0 | hpos
  · subst h0
    rfl
  · have h1n : (1 : Nat) ≤ 2 ^ n := Nat.one_le_two_pow
    have hveq : netmaskInt n = 2 ^ (32 - n) * (2 ^ n - 1) := by
      rw [netmask_eq hn]
      obtain ⟨e, he⟩ : ∃ e, 2 ^ n = e + 1 := ⟨2 ^ n - 1, by omega⟩
      have hpow : 2 ^ (32 - n) * (e + 1) = 2 ^ 32 := by
        rw [← he, ← pow_add]
        congr 1
        omega
      rw [he, Nat.add_sub_cancel]
      have hd : 2 ^ (32 - n) * (e + 1) = 2 ^ (32 - n) * e + 2 ^ (32 - n) := by
        rw [Nat.mul_add, Nat.mul_one]
      omega
    have hm2 : (2 ^ n - 1) % 2 = 1 := by
      have h2 : 2 ^ n = 2 * 2 ^ (n - 1) := by
        conv_lhs => rw [show n = (n - 1) + 1 by omega]
        rw [pow_succ, Nat.mul_comm]
      have h1 : (1 : Nat) ≤ 2 ^ (n - 1) := Nat.one_le_two_pow
      omega
    have h32 : 32 - (32 - n) = n := by omega
    have hcount : countRighthandZeroBits (netmaskInt n) = 32 - n :=
      countRighthand_eq hm2 (by omega) (by rw [h32]; omega) hveq
    have hshift : netmaskInt n >>> (32 - n) = 2 ^ n - 1 := by
      rw [hveq, Nat.shiftRight_eq_div_pow]
      exact Nat.mul_div_cancel_left _ (Nat.two_pow_pos _)
    simp only [pfxFromIpInt, hcount, hshift, Nat.one_shiftLeft, h32]
    simp

/-- Soundness of `_prefix_from_ip_int`: a value it accepts with result `n`
is exactly the contiguous netmask of prefix length `n`. -/
theorem pfxFromIpInt_elim {v n : Nat} (hv : v < 2 ^ 32) (h : pfxFromIpInt v = some n) :
    n ≤ 32 ∧ v = netmaskInt n := by
  by_cases h0 : v = 0
  · subst h0
    have he : pfxFromIpInt 0 = some 0 := by rfl
    rw [he] at h
    have hn := Option.some.inj h
    subst hn
    exact ⟨by omega, by decide⟩
  · obtain ⟨t, m, hmodd, hveq⟩ := Nat.exists_eq_two_pow_mul_odd h0
    have hm2 : m % 2 = 1 := Nat.odd_iff.mp hmodd
    have ht31 : t ≤ 31 := by
      by_contra hc
      push_neg at hc
      have ha : 2 ^ 32 ≤ 2 ^ t := Nat.pow_le_pow_right (by omega) (by omega)
      have hb : 2 ^ t ≤ 2 ^ t * m := Nat.le_mul_of_pos_right _ (by omega)
      omega
    have hmlt : m < 2 ^ (32 - t) := by
      by_contra hc
      push_neg at hc
      have h1 : 2 ^ t * 2 ^ (32 - t) ≤ 2 ^ t * m := Nat.mul_le_mul_left _ hc
      rw [← pow_add] at h1
      have h2 : t + (32 - t) = 32 := by omega
      rw [h2] at h1
      omega
    have hcount : countRighthandZeroBits v = t := countRighthand_eq hm2 ht31 hmlt hveq
    have hshift : v >>> t = m := by
      rw [hveq, Nat.shiftRight_eq_div_pow]
      exact Nat.mul_div_cancel_left m (Nat.two_pow_pos t)
    simp only [pfxFromIpInt, hcount, hshift, Nat.one_shiftLeft] at h
    split_ifs at h with hcheck
    · have hn := Option.some.inj h
      have hpow : 2 ^ t * 2 ^ (32 - t) = 2 ^ 32 := by
        rw [← pow_add]
        congr 1
        omega
      have h2t : (1 : Nat) ≤ 2 ^ t := Nat.one_le_two_pow
      have h2tt : (1 : Nat) ≤ 2 ^ (32 - t) := Nat.one_le_two_pow
      constructor
      · omega
      · rw [netmask_eq (by omega : n ≤ 32)]
        have h32n : 32 - n = t := by omega
        rw [h32n, hveq, hcheck]
        have hms : 2 ^ t * (2 ^ (32 - t) - 1) = 2 ^ 32 - 2 ^ t := by
          obtain ⟨e, he⟩ : ∃ e, 2 ^ (32 - t) = e + 1 := ⟨2 ^ (32 - t) - 1, by omega⟩
          have hp2 : 2 ^ t * (e + 1) = 2 ^ 32 := by
            rw [← he]
            exact hpow
          rw [he, Nat.add_sub_cancel]
          have hd : 2 ^ t * (e + 1) = 2 ^ t * e + 2 ^ t := by
            rw [Nat.mul_add, Nat.mul_one]
          omega
        exact hms

/-! ### Stripping and digit-token facts -/

theorem dropWhile_eq_self_of_all {p : Char → Bool} {s : List Char}
    (h : ∀ c ∈ s, p c = false) : s.dropWhile p = s := by
  cases s with
  | nil => rfl
  | cons c rest =>
    rw [List.dropWhile_cons, h c (by simp)]
    simp

theorem pyStrip_eq_self {s : List Char} (h : ∀ c ∈ s, isSpaceChar c = false) :
    pyStrip s = s := by
  unfold pyStrip
  rw [dropWhile_eq_self_of_all h,
    dropWhile_eq_self_of_all (fun c hc => h c (List.mem_reverse.mp hc)),
    List.reverse_reverse]

theorem isSpaceChar_eq_false_of_isDig {c : Char} (h : isDig c = true) :
    isSpaceChar c = false := by
  obtain ⟨h1, h2⟩ := isDig_iff.mp h
  simp [isSpaceChar]
  omega

theorem isDig_ne_slash {c : Char} (h : isDig c = true) : c ≠ '/' := by
  intro hc
  rw [hc] at h
  exact absurd h (by decide)

theorem slash_not_mem_of_digits {s : List Char} (h : ∀ c ∈ s, isDig c = true) :
    ('/' : Char) ∉ s :=
  fun hm => absurd (h '/' hm) (by decide)

/-! ### Parse-level lemmas for the interface target -/

theorem parseInterface_two {t a m : List Char} (hsp : splitOnChar '/' t = [a, m]) :
    parseInterface t =
      match ipIntFromChars a, makeNetmask m with
      | some addr, some p => some (addr, p)
      | _, _ => none := by
  unfold parseInterface
  rw [hsp]

theorem parseInterface_many {t a m x : List Char} {xs : List (List Char)}
    (hsp : splitOnChar '/' t = a :: m :: x :: xs) :
    parseInterface t = none := by
  unfold parseInterface
  rw [hsp]

theorem splitOnChar_length_ge_two {sep : Char} {s : List Char} (h : sep ∈ s) :
    2 ≤ (splitOnChar sep s).length := by
  induction s with
  | nil => simp at h
  | cons c rest ih =>
    rcases hsp : splitOnChar sep rest with _ | ⟨g, gs⟩
    · exact absurd hsp (splitOnChar_ne_nil sep rest)
    · by_cases hc : c = sep
      · have hs2 : splitOnChar sep (c :: rest) = [] :: g :: gs := by
          unfold splitOnChar
          rw [hsp]
          simp [hc]
        rw [hs2]
        simp
      · have hmem : sep ∈ rest := by
          rcases List.mem_cons.mp h with h1 | h1
          · exact absurd h1.symm hc
          · exact h1
        have hlen := ih hmem
        rw [hsp] at hlen
        have hs2 : splitOnChar sep (c :: rest) = (c :: g) :: gs := by
          unfold splitOnChar
          rw [hsp]
          simp [hc]
        rw [hs2]
        simpa using hlen

/-! ### Claim theorems on parsing -/

/-- C10: in the two-token form, a second token that is a bare decimal number
`N` in `[0, 32]` without a leading `/` (e.g. arguments `10.0.0.1` and `24`)
is accepted and treated as prefix length `N`: the program forwards the target
`ip/N` to `summarize`. -/
theorem C10_bare_decimal_prefix_token (ip mask : List Char) (hne : mask ≠ [])
    (hdig : ∀ c ∈ mask, isDig c = true) (hle : digitsToNat mask ≤ 32) :
    parseInput [ip, mask] = some (pyStrip ip ++ '/' :: natRepr (digitsToNat mask)) := by
  have hstrip : pyStrip mask = mask :=
    pyStrip_eq_self (fun c hc => isSpaceChar_eq_false_of_isDig (hdig c hc))
  have hhead : (pyStrip mask).head? ≠ some '/' := by
    rw [hstrip]
    cases mask with
    | nil => simp
    | cons c rest =>
      simp
      exact isDig_ne_slash (hdig c (by simp))
  have hsplit : splitOnChar '/' (pyStrip mask) = [pyStrip mask] := by
    rw [hstrip]
    exact splitOnChar_of_not_mem (slash_not_mem_of_digits hdig)
  have hne2 : mask.isEmpty = false := by
    cases mask
    · exact absurd rfl hne
    · rfl
  have hall : mask.all isDig = true := List.all_eq_true.mpr hdig
  have hmk : makeNetmask (pyStrip mask) = some (digitsToNat mask) := by
    rw [hstrip]
    simp [makeNetmask, pfxFromPfxChars, hne2, hall, hle]
  unfold parseInput
  dsimp only
  rw [if_neg hhead, hsplit]
  dsimp only
  rw [hmk]

theorem C10_bare_decimal_prefix_token_witness :
    ("24".toList ≠ ([] : List Char)) ∧ "24".toList.all isDig = true ∧
    digitsToNat "24".toList ≤ 32 ∧
    parseInput ["10.0.0.1".toList, "24".toList] =
      some (pyStrip "10.0.0.1".toList ++ '/' :: natRepr (digitsToNat "24".toList)) :=
  ⟨by decide, by decide, by decide,
    C10_bare_decimal_prefix_token _ _ (by decide) (by decide) (by decide)⟩

/-- C8: round-trip of the mask normalizer.  A valid contiguous dotted-decimal
mask `M` (one whose 32-bit value is a netmask `1^n 0^(32-n)`) normalizes to
the prefix length `n`, and rendering that prefix length's netmask yields `M`
again. -/
theorem C8_mask_roundtrip (M : List Char) (n : Nat) (hn : n ≤ 32)
    (hM : ipIntFromChars M = some (netmaskInt n)) :
    makeNetmask M = some n ∧ ipToChars (netmaskInt n) = M := by
  constructor
  · simp only [makeNetmask, pfxFromPfxChars_none_of_dotted hM, pfxFromIpChars, hM,
      pfxFromIpInt_netmask hn]
  · exact ipToChars_of_parse hM

theorem C8_mask_roundtrip_witness :
    (24 : Nat) ≤ 32 ∧ ipIntFromChars "255.255.255.0".toList = some (netmaskInt 24) ∧
    (makeNetmask "255.255.255.0".toList = some 24 ∧
      ipToChars (netmaskInt 24) = "255.255.255.0".toList) :=
  ⟨by decide, by decide, C8_mask_roundtrip _ 24 (by decide) (by decide)⟩

/-! ### Bridging the spec-side mask predicates -/

theorem specIsContiguousMask_iff {v : Nat} (hv : v < 2 ^ 32) :
    specIsContiguousMask v = true ↔ ∃ n, n ≤ 32 ∧ v = netmaskInt n := by
  unfold specIsContiguousMask
  rw [List.any_eq_true]
  constructor
  · rintro ⟨n, hn, hb⟩
    rw [List.mem_range] at hn
    have hvn : v = specNetmaskVal n := by simpa using hb
    refine ⟨n, by omega, ?_⟩
    rw [hvn, specNetmaskVal, netmask_eq (by omega : n ≤ 32)]
  · rintro ⟨n, hn, hvn⟩
    refine ⟨n, List.mem_range.mpr (by omega), ?_⟩
    have hvs : v = specNetmaskVal n := by
      rw [hvn, specNetmaskVal, netmask_eq hn]
    simpa using hvs

theorem specIsHostMask_iff {v : Nat} :
    specIsHostMask v = true ↔ ∃ n, n ≤ 32 ∧ v = 2 ^ n - 1 := by
  unfold specIsHostMask
  rw [List.any_eq_true]
  constructor
  · rintro ⟨n, hn, hb⟩
    rw [List.mem_range] at hn
    exact ⟨n, by omega, by simpa using hb⟩
  · rintro ⟨n, hn, hvn⟩
    exact ⟨n, List.mem_range.mpr (by omega), by simpa using hvn⟩

theorem hostmask_xor_netmask {n : Nat} (hn : n ≤ 32) :
    (2 ^ n - 1) ^^^ allOnes = netmaskInt (32 - n) := by
  interval_cases n <;> decide

/-! ### C3: the normalizer also accepts hostmask patterns -/

theorem countRighthandZeroBits_255 : countRighthandZeroBits 255 = 0 := by
  unfold countRighthandZeroBits
  rw [if_neg (by decide)]
  have h : (allOnes ^^^ 255) &&& (255 - 1) = 0 := by decide
  rw [h, Nat.size_zero]
  decide

theorem pfxFromIpInt_255 : pfxFromIpInt 255 = none := by
  simp only [pfxFromIpInt, countRighthandZeroBits_255]
  decide

/-- C3 counterexample: the dotted-decimal mask `0.0.0.255` has 32-bit value
255, whose bit pattern `0^24 1^8` is not of the form `1^n 0^(32-n)` (the
code's own netmask test rejects it), yet the mask normalizer does not fail:
it accepts the value as a hostmask and yields prefix length 24. -/
theorem C3_counterexample_hostmask_accepted :
    ipIntFromChars "0.0.0.255".toList = some 255 ∧
    pfxFromIpInt 255 = none ∧
    specIsContiguousMask 255 = false ∧
    makeNetmask "0.0.0.255".toList = some 24 := by
  have h1 : pfxFromPfxChars "0.0.0.255".toList = none := by decide
  have h2 : ipIntFromChars "0.0.0.255".toList = some 255 := by decide
  have h3 : (255 : Nat) ^^^ allOnes = netmaskInt 24 := by decide
  refine ⟨h2, pfxFromIpInt_255, by decide, ?_⟩
  simp only [makeNetmask, h1, pfxFromIpChars, h2, pfxFromIpInt_255, h3,
    pfxFromIpInt_netmask (by omega : (24 : Nat) ≤ 32)]

/-- C3 (amended): for a dotted-decimal mask whose 32-bit value is neither a
contiguous netmask `1^n 0^(32-n)` nor a hostmask `0^(32-n) 1^n`, the
normalizer fails and never yields a prefix; hostmask-shaped values such as
`0.0.0.255` are additionally accepted (as the complement of a netmask). -/
theorem C3_mask_rejection_amended (s : List Char) (v : Nat)
    (hparse : ipIntFromChars s = some v) :
    makeNetmask s = none ↔
      specIsContiguousMask v = false ∧ specIsHostMask v = false := by
  have hv := ipIntFromChars_lt hparse
  have hallOnes32 : allOnes < 2 ^ 32 := by decide
  have hxorlt : v ^^^ allOnes < 2 ^ 32 := Nat.xor_lt_two_pow hv hallOnes32
  have hmk : makeNetmask s =
      (match pfxFromIpInt v with
       | some p => some p
       | none => pfxFromIpInt (v ^^^ allOnes)) := by
    simp only [makeNetmask, pfxFromPfxChars_none_of_dotted hparse, pfxFromIpChars, hparse]
  rw [hmk]
  constructor
  · intro hnone
    have hni : pfxFromIpInt v = none := by
      rcases hx : pfxFromIpInt v with _ | p
      · rfl
      · simp only [hx] at hnone
        exact Option.noConfusion hnone
    simp only [hni] at hnone
    constructor
    · cases hcc : specIsContiguousMask v with
      | false => rfl
      | true =>
        exfalso
        obtain ⟨n, hn, hvn⟩ := (specIsContiguousMask_iff hv).mp hcc
        rw [hvn, pfxFromIpInt_netmask hn] at hni
        exact Option.noConfusion hni
    · cases hcc : specIsHostMask v with
      | false => rfl
      | true =>
        exfalso
        obtain ⟨n, hn, hvn⟩ := specIsHostMask_iff.mp hcc
        have hxn : v ^^^ allOnes = netmaskInt (32 - n) := by
          rw [hvn]
          exact hostmask_xor_netmask hn
        rw [hxn, pfxFromIpInt_netmask (by omega)] at hnone
        exact Option.noConfusion hnone
  · rintro ⟨hc, hh⟩
    have hni : pfxFromIpInt v = none := by
      rcases hx : pfxFromIpInt v with _ | p
      · rfl
      · exfalso
        obtain ⟨hp32, hpv⟩ := pfxFromIpInt_elim hv hx
        have ht : specIsContiguousMask v = true :=
          (specIsContiguousMask_iff hv).mpr ⟨p, hp32, hpv⟩
        rw [ht] at hc
        exact Bool.noConfusion hc
    have hnx : pfxFromIpInt (v ^^^ allOnes) = none := by
      rcases hx : pfxFromIpInt (v ^^^ allOnes) with _ | p
      · rfl
      · exfalso
        obtain ⟨hp32, hpv⟩ := pfxFromIpInt_elim hxorlt hx
        have h2 := congrArg (fun x => x ^^^ allOnes) hpv
        simp only at h2
        rw [Nat.xor_assoc, Nat.xor_self, Nat.xor_zero] at h2
        have hvv : v = 2 ^ (32 - p) - 1 := by
          rw [h2]
          exact hostmask_eq hp32
        have ht : specIsHostMask v = true :=
          specIsHostMask_iff.mpr ⟨32 - p, by omega, hvv⟩
        rw [ht] at hh
        exact Bool.noConfusion hh
    simp only [hni, hnx]

theorem C3_mask_rejection_amended_witness :
    ipIntFromChars "255.0.255.0".toList = some 4278255360 ∧
    (makeNetmask "255.0.255.0".toList = none ↔
      specIsContiguousMask 4278255360 = false ∧ specIsHostMask 4278255360 = false) :=
  ⟨by decide, C3_mask_rejection_amended _ 4278255360 (by decide)⟩

/-! ### C4: exit codes for usage errors -/

/-- C4 counterexample: invoked with the single malformed token `abc` (no `/`),
the program reports the error but exits with code 2, not 1 as claimed. -/
theorem C4_counterexample_exit_two :
    mainExitCode ["abc".toList] = 2 ∧ mainExitCode ["abc".toList] ≠ 1 := by
  constructor <;> decide

/-- C4 (amended): for every invocation with more than two arguments, or with
a malformed single token containing no `/`, the program reports a usage error
and exits with process exit code 2 (exit code 1 is used only for the
zero-argument invocation). -/
theorem C4_usage_error_exit_code (args : List (List Char))
    (h : 2 < args.length ∨ ∃ s, args = [s] ∧ ('/' : Char) ∉ pyStrip s) :
    mainExitCode args = 2 := by
  rcases h with hlen | ⟨s, rfl, hs⟩
  · rcases args with _ | ⟨a, _ | ⟨b, _ | ⟨c, t⟩⟩⟩
    · simp at hlen
    · simp at hlen
    · simp at hlen
    · simp [mainExitCode, parseInput]
  · simp [mainExitCode, parseInput, hs]

theorem C4_usage_error_exit_code_witness :
    2 < (["a".toList, "b".toList, "c".toList] : List (List Char)).length ∧
    mainExitCode ["a".toList, "b".toList, "c".toList] = 2 :=
  ⟨by decide, C4_usage_error_exit_code _ (Or.inl (by decide))⟩

/-! ### C9: summarize fails exactly on unparseable targets and echoes the
input address on success -/

/-- C9: `summarize` fails (raising `InvalidAddressError`) if and only if its
combined address/prefix string cannot be parsed as a valid IPv4 interface
specification — a single `/` separating four valid octets from a part that
`_make_netmask` accepts as prefix or mask; on success it returns the full
record with the original input address echoed back (and on failure no fields
are produced, the result being `none`). -/
theorem C9_failure_iff_unparseable (t : List Char) (hslash : ('/' : Char) ∈ t) :
    (summarize t = none ↔
      ¬ ∃ a m addr p, splitOnChar '/' t = [a, m] ∧
        ipIntFromChars a = some addr ∧ makeNetmask m = some p) ∧
    (∀ r, summarize t = some r → ∃ a m, splitOnChar '/' t = [a, m] ∧ r.input_ip = a) := by
  have hlen := splitOnChar_length_ge_two hslash
  rcases hsp : splitOnChar '/' t with _ | ⟨a, _ | ⟨m, _ | ⟨x, xs⟩⟩⟩
  · exact absurd hsp (splitOnChar_ne_nil _ t)
  · rw [hsp] at hlen
    simp at hlen
  · -- exactly two parts
    constructor
    · constructor
      · intro hnone
        rintro ⟨a', m', addr, p, hsp', hip, hmk⟩
        injection hsp' with h1 h2
        injection h2 with h2 _
        subst h1
        subst h2
        unfold summarize at hnone
        rw [parseInterface_two hsp, hip, hmk] at hnone
        exact Option.noConfusion hnone
      · intro hnege
        unfold summarize
        rw [parseInterface_two hsp]
        rcases hip : ipIntFromChars a with _ | addr
        · rfl
        · rcases hmk : makeNetmask m with _ | p
          · rfl
          · exact absurd ⟨a, m, addr, p, rfl, hip, hmk⟩ hnege
    · intro r hr
      unfold summarize at hr
      rw [parseInterface_two hsp] at hr
      rcases hip : ipIntFromChars a with _ | addr
      · rw [hip] at hr
        exact Option.noConfusion hr
      · rcases hmk : makeNetmask m with _ | p
        · rw [hip, hmk] at hr
          exact Option.noConfusion hr
        · rw [hip, hmk] at hr
          have hr' := Option.some.inj hr
          refine ⟨a, m, rfl, ?_⟩
          rw [← hr']
          show (render (summarizeCore addr p)).input_ip = a
          have hfield : (render (summarizeCore addr p)).input_ip = ipToChars addr := by
            simp [render, summarizeCore_input]
          rw [hfield]
          exact ipToChars_of_parse hip
  · -- three or more parts: the interface constructor rejects the target
    constructor
    · constructor
      · intro _
        rintro ⟨a', m', addr, p, hsp', _, _⟩
        simp at hsp'
      · intro _
        unfold summarize
        rw [parseInterface_many hsp]
    · intro r hr
      unfold summarize at hr
      rw [parseInterface_many hsp] at hr
      exact Option.noConfusion hr

theorem C9_failure_iff_unparseable_witness :
    ('/' : Char) ∈ "192.168.1.10/24".toList ∧
    ((summarize "192.168.1.10/24".toList = none ↔
      ¬ ∃ a m addr p, splitOnChar '/' "192.168.1.10/24".toList = [a, m] ∧
        ipIntFromChars a = some addr ∧ makeNetmask m = some p) ∧
    (∀ r, summarize "192.168.1.10/24".toList = some r →
      ∃ a m, splitOnChar '/' "192.168.1.10/24".toList = [a, m] ∧ r.input_ip = a)) :=
  ⟨by decide, C9_failure_iff_unparseable _ (by decide)⟩

theorem C7_wildcard_complement_witness :
    (3232235786 : Nat) < 2 ^ 32 ∧ (24 : Nat) ≤ 32 ∧
    ((summarizeCore 3232235786 24).wildcard = netmaskInt 24 ^^^ allOnes ∧
      (summarizeCore 3232235786 24).network_address &&&
        (summarizeCore 3232235786 24).wildcard = 0) :=
  ⟨by decide, by decide, C7_wildcard_complement 3232235786 24 (by decide) (by decide)⟩

end IpCalc
